import Mathlib

/-! Recolino: the real-time annotation pipeline

A shallow embedding of `recolino.c`: the realtime callback `process`, the disk
reader `disk_thread` and the annotation writer `output_thread`, together with
the two JACK ring buffers that connect them.

Conventions of the embedding

* `jack_nframes_t` is `uint32_t`: frame counters are naturals below `2 ^ 32`
  and every arithmetic operation on them is reduced modulo `2 ^ 32`.
* A ring buffer is modelled at the level of whole records (samples or events);
  byte counts are kept, since the source compares and passes byte counts.
* The audio sample type is a parameter `α` carrying the addition used by the
  mixer; nothing else is assumed of it.
* The text streams `annout` and `errout` are the lists of strings written.
* Thread wake-ups (`pthread_mutex_trylock` / `pthread_cond_signal`) do not
  change any of the data modelled here and are left out.
-/

namespace Recolino

/-! ## Constants -/

/-- `RECOLINO_RB_SIZE_AUDIO` (recolino.c:47). -/
def RECOLINO_RB_SIZE_AUDIO : Nat := 16384

/-- `RECOLINO_RB_SIZE_EVENT` (recolino.c:48). -/
def RECOLINO_RB_SIZE_EVENT : Nat := 64

/-- Value of `sizeof(jack_default_audio_sample_t)`: a sample is a 32-bit float. -/
def sizeof_sample : Nat := 4

/-- Value of `sizeof(recolino_event_t)`: an enum, a `jack_nframes_t` and an `int`. -/
def sizeof_event : Nat := 12

/-- Number of values of `jack_nframes_t` (`uint32_t`). -/
def NFRAMES_MOD : Nat := 4294967296

/-! ## Events -/

/-- The anonymous enum of `recolino_event_t` (recolino.c:56). -/
inductive recolino_evtype where
  | RECOLINO_EVENT_KEY
  | RECOLINO_EVENT_MIDI
deriving DecidableEq, Repr

/-- The struct `recolino_event_t` (recolino.c:55-59). -/
structure recolino_event_t where
  evtype : recolino_evtype
  jtstamp : Nat
  value : Int
deriving DecidableEq, Repr

/-- A raw MIDI message as delivered by `jack_midi_event_get`: the offset of the
message inside the block and its bytes. -/
structure jack_midi_event_t where
  time : Nat
  buffer : List Nat
deriving DecidableEq, Repr

/-! ## The JACK ring buffer -/

/-- Modelled from the spec: the ring buffer `jack_ringbuffer_t` of the JACK
library, which is not part of the repository (section 4.1: a fixed-capacity
byte/record queue with `write_space`, `read_space`, `write`, `read`). `size` is
the number of bytes allocated, `data` the queued records, oldest first. The
general theorems below hold for every `size`. -/
structure jack_ringbuffer_t (α : Type) where
  size : Nat
  data : List α
deriving DecidableEq, Repr

/-- Search of `jack_ringbuffer_create` for the exponent: the least `p`, starting
from the given one, with `sz ≤ 2 ^ p`. -/
def ringbuffer_power : Nat → Nat → Nat → Nat
  | 0, p, _ => p
  | fuel + 1, p, sz => if 2 ^ p < sz then ringbuffer_power fuel (p + 1) sz else p

/-- Modelled from the spec: `jack_ringbuffer_create(sz)` (section 3: created once
at startup, never resized). As in the JACK library the allocation is the least
power of two that is at least `sz` (and at least 2); the buffer starts empty. -/
def jack_ringbuffer_create (α : Type) (sz : Nat) : jack_ringbuffer_t α :=
  { size := 2 ^ ringbuffer_power sz 1 sz, data := [] }

/-- Modelled from the spec: `jack_ringbuffer_read_space`, in bytes, for a buffer
whose records are `rs` bytes each. -/
def jack_ringbuffer_read_space {α : Type} (rs : Nat) (rb : jack_ringbuffer_t α) : Nat :=
  rs * rb.data.length

/-- Modelled from the spec: `jack_ringbuffer_write_space`, in bytes. As in the JACK
library one byte of the allocation is never used, so that a full buffer differs
from an empty one. -/
def jack_ringbuffer_write_space {α : Type} (rs : Nat) (rb : jack_ringbuffer_t α) : Nat :=
  rb.size - 1 - rs * rb.data.length

/-- Modelled from the spec: `jack_ringbuffer_write` of one record of `rs` bytes.
When the record does not fit, no whole record is queued (the library would
store a torn prefix of it; every call site of the program rules this out). -/
def jack_ringbuffer_write {α : Type} (rs : Nat) (rb : jack_ringbuffer_t α) (x : α) :
    jack_ringbuffer_t α :=
  if rs ≤ jack_ringbuffer_write_space rs rb then { rb with data := rb.data ++ [x] } else rb

/-- Modelled from the spec: `jack_ringbuffer_read` of `cnt` bytes: the oldest
`min cnt read_space` bytes leave the buffer, as whole records of `rs` bytes.
Returns the records read and the buffer that remains. -/
def jack_ringbuffer_read {α : Type} (rs : Nat) (rb : jack_ringbuffer_t α) (cnt : Nat) :
    List α × jack_ringbuffer_t α :=
  let k := min cnt (jack_ringbuffer_read_space rs rb) / rs
  (rb.data.take k, { rb with data := rb.data.drop k })

/-! ## Session state -/

/-- The struct `recolino_info_t` (recolino.c:61-82), restricted to the fields the
three threads compute with. `sndfile` is the decoder handle: the interleaved
samples not yet read. `channels` and `samplerate` are the fields of `sfinfo`
(an `int` each, never negative for an open file). `jportmidi` tells whether the
MIDI port pointer is non-NULL. -/
structure recolino_info_t (α : Type) where
  annout : List String
  errout : List String
  sndfile : List α
  channels : Nat
  samplerate : Nat
  jportmidi : Bool
  rbaudio : jack_ringbuffer_t α
  rbevent : jack_ringbuffer_t recolino_event_t
  startjtime : Nat
  running : Bool
  echo : Bool
deriving DecidableEq, Repr

/-- The session state set up by `main` (recolino.c:348-368) once the sound file
is open and both ports are registered. -/
def main_init (α : Type) (file : List α) (channels samplerate : Nat) (echo : Bool) :
    recolino_info_t α :=
  { annout := []
    errout := []
    sndfile := file
    channels := channels
    samplerate := samplerate
    jportmidi := true
    rbaudio := jack_ringbuffer_create α ( RECOLINO_RB_SIZE_AUDIO * sizeof_sample)
    rbevent := jack_ringbuffer_create recolino_event_t (RECOLINO_RB_SIZE_EVENT * sizeof_event)
    startjtime := 0
    running := false
    echo := echo }

/-! ## The realtime callback -/

/-- What one invocation of `process` receives from outside: the block size, the
value of `jack_last_frame_time` for this cycle, the output port buffer, the
values of `c` after each successful one-byte `read` from the terminal, and the
messages in the MIDI port buffer. -/
structure jack_cycle (α : Type) where
  nframes : Nat
  last_frame_time : Nat
  out : List α
  stdin : List Int
  midi : List jack_midi_event_t
deriving DecidableEq, Repr

/-- Body of the keyboard loop (recolino.c:249-264) for one byte read into `c`. -/
def process_key {α : Type} (F : Nat) (ri : recolino_info_t α) (c : Int) : recolino_info_t α :=
  if jack_ringbuffer_write_space sizeof_event ri.rbevent < sizeof_event then
    { ri with errout := ri.errout ++ ["keyboard buffer overrun!\n"] }
  else
    let event : recolino_event_t :=
      { evtype := recolino_evtype.RECOLINO_EVENT_KEY, jtstamp := F, value := c }
    { ri with rbevent := jack_ringbuffer_write sizeof_event ri.rbevent event }

/-- The keyboard loop (recolino.c:248-265): one iteration per byte available. -/
def poll_keyboard {α : Type} (F : Nat) : List Int → recolino_info_t α → recolino_info_t α
  | [], ri => ri
  | c :: rest, ri => poll_keyboard F rest (process_key F ri c)

/-- Body of the MIDI loop (recolino.c:280-298) for one message. A byte past the
end of a message shorter than two bytes is read as 0. -/
def process_midi_event {α : Type} (F : Nat) (ri : recolino_info_t α) (m : jack_midi_event_t) :
    recolino_info_t α :=
  if Nat.land (m.buffer.getD 0 0) 0xf0 = 0x90 then
    let event : recolino_event_t :=
      { evtype := recolino_evtype.RECOLINO_EVENT_MIDI
        jtstamp := (F + m.time) % NFRAMES_MOD
        value := (m.buffer.getD 1 0 : Nat) }
    { ri with rbevent := jack_ringbuffer_write sizeof_event ri.rbevent event }
  else ri

/-- The MIDI loop (recolino.c:279-299) over the messages of the block. -/
def midi_loop {α : Type} (F : Nat) : List jack_midi_event_t → recolino_info_t α → recolino_info_t α
  | [], ri => ri
  | m :: rest, ri => midi_loop F rest (process_midi_event F ri m)

/-- The MIDI section of `process` (recolino.c:268-301). -/
def poll_midi {α : Type} (F : Nat) (midi : List jack_midi_event_t) (ri : recolino_info_t α) :
    recolino_info_t α :=
  if ri.jportmidi then
    let event_count := midi.length
    if jack_ringbuffer_write_space sizeof_event ri.rbevent < event_count * sizeof_event then
      { ri with errout := ri.errout ++ ["keyboard buffer overrun!\n"] }
    else midi_loop F midi ri
  else ri

/-- The audio section of `process` (recolino.c:228-239): capture of the start
time, the underrun test and the copy into the output buffer. As in the source,
`bavail` is a number of bytes; the underrun test compares it with `nframes`,
the copy with `nframes * sizeof(jack_default_audio_sample_t)`. -/
def process_audio {α : Type} (cyc : jack_cycle α) (ri : recolino_info_t α) :
    recolino_info_t α × List α :=
  let ri1 := if ri.startjtime = 0 then { ri with startjtime := cyc.last_frame_time } else ri
  let bavail := jack_ringbuffer_read_space sizeof_sample ri1.rbaudio
  let ri2 :=
    if bavail < cyc.nframes then { ri1 with errout := ri1.errout ++ ["audio buffer underrun!\n"] }
    else ri1
  let r := jack_ringbuffer_read sizeof_sample ri2.rbaudio (min bavail (cyc.nframes * sizeof_sample))
  ({ ri2 with rbaudio := r.2 }, r.1 ++ cyc.out.drop r.1.length)

/-- The realtime callback `process` (recolino.c:217-304): the new session state
and the contents of the output port buffer afterwards. -/
def process {α : Type} (cyc : jack_cycle α) (ri : recolino_info_t α) :
    recolino_info_t α × List α :=
  if !ri.running then (ri, cyc.out)
  else
    let a := process_audio cyc ri
    let ri3 := poll_keyboard cyc.last_frame_time cyc.stdin a.1
    (poll_midi cyc.last_frame_time cyc.midi ri3, a.2)

/-- A sequence of callback invocations; each one comes with the value of
`running` it observes (the flag belongs to the disk reader). -/
def process_run {α : Type} : List (Bool × jack_cycle α) → recolino_info_t α → recolino_info_t α
  | [], ri => ri
  | (r, cyc) :: rest, ri => process_run rest (process cyc { ri with running := r }).1

/-! ## The disk reader -/

/-- Modelled from the spec: the decoder call `sf_readf_float(sndfile, readbuf, n)`
(section 6, `read_frames(handle, max_count)`): up to `n` whole frames of
`channels` interleaved samples are copied to `readbuf`; the count is 0 at the
end of the stream. Returns the count, `readbuf` and the handle afterwards. -/
def sf_readf_float {α : Type} (sndfile : List α) (channels n : Nat) : Nat × List α × List α :=
  let k := min n (sndfile.length / channels)
  (k, sndfile.take (k * channels), sndfile.drop (k * channels))

/-- The inner loop of the mixer (recolino.c:153-158): `sum = .0`, then
`sum += readbuf[fi * channels + ci]` for `ci = 0 .. channels - 1`. -/
def mix_frame {α : Type} [Add α] [Zero α] (readbuf : List α) (channels fi : Nat) : α :=
  (List.range channels).foldl (fun sum ci => sum + readbuf.getD (fi * channels + ci) 0) 0

/-- The outer loop of the mixer (recolino.c:152-161): for `fi = 0 .. nread - 1`
the mixed frame is written to the audio ring buffer. -/
def disk_write_frames {α : Type} [Add α] [Zero α] (readbuf : List α) (channels nread : Nat)
    (rb : jack_ringbuffer_t α) : jack_ringbuffer_t α :=
  (List.range nread).foldl
    (fun rb fi => jack_ringbuffer_write sizeof_sample rb (mix_frame readbuf channels fi)) rb

/-- One iteration of the loop of `disk_thread` (recolino.c:142-169), up to the
wait on `data_needed`; `sigcaught` is the value of the cancellation flag read at
line 148. The second component tells whether the thread left the loop through
`eof` (recolino.c:171-175). -/
def disk_thread_iter {α : Type} [Add α] [Zero α] (sigcaught : Bool) (ri : recolino_info_t α) :
    recolino_info_t α × Bool :=
  let n := jack_ringbuffer_write_space sizeof_sample ri.rbaudio / sizeof_sample
  let r := sf_readf_float ri.sndfile ri.channels n
  let nread := r.1
  let ri1 := { ri with sndfile := r.2.2 }
  if nread = 0 ∨ sigcaught = true then ({ ri1 with running := false }, true)
  else
    ({ ri1 with
        rbaudio := disk_write_frames r.2.1 ri.channels nread ri.rbaudio
        running := true }, false)

/-! ## Single-precision arithmetic of the annotation writer

`tsec` is a C `float`: IEEE 754 binary32, every operation rounded to the nearest
value, ties to even, and evaluated in that format. The values that occur are
non-negative, so a finite float is kept as a fraction `num / den` of naturals
whose denominator is a power of two. -/

/-- Nearest integer to `n / d`, ties to the even neighbour (the IEEE 754
default rounding, also used by `printf`). -/
def round_half_even (n d : Nat) : Nat :=
  let q := n / d
  let r := n % d
  if 2 * r < d then q else if d < 2 * r then q + 1 else if q % 2 = 0 then q else q + 1

/-- Position of the leading bit, by halving. -/
def ilog2_aux : Nat → Nat → Nat
  | 0, _ => 0
  | fuel + 1, n => if n < 2 then 0 else ilog2_aux fuel (n / 2) + 1

/-- Position of the leading bit of `n` (0 for `n ≤ 1`). -/
def ilog2 (n : Nat) : Nat := ilog2_aux n n

/-- Conversion of a non-negative integer (`jack_nframes_t`, or a non-negative
`int`) to `float`: rounding to 24 significant bits. The result is again an
integer. -/
def float_of_uint (n : Nat) : Nat :=
  let s := ilog2 n - 23
  round_half_even n (2 ^ s) * 2 ^ s

/-- Binary exponent of the quotient: the `k` with `2 ^ k ≤ N / M < 2 ^ (k + 1)`. -/
def float_quot_exp (N M : Nat) : Int :=
  let a := ilog2 N
  let b := ilog2 M
  if M * 2 ^ (a - b) ≤ N * 2 ^ (b - a) then (a : Int) - b else (a : Int) - b - 1

/-- The positive fraction `N / M` rounded to 24 significant bits, as numerator
and denominator. -/
def float_round (N M : Nat) : Nat × Nat :=
  if N = 0 then (0, 1)
  else
    let s := float_quot_exp N M - 23
    let m := round_half_even (N * 2 ^ (-s).toNat) (M * 2 ^ s.toNat)
    (m * 2 ^ s.toNat, 2 ^ (-s).toNat)

/-- A C `float` that is non-negative, infinite or not a number. -/
inductive float_t where
  | finite (num den : Nat)
  | inf
  | nan
deriving DecidableEq, Repr

/-- Single-precision division `N / M` of two non-negative integral floats. With
operands below `2 ^ 32` the quotient stays inside the normal range, so the
result is the quotient rounded to 24 significant bits. -/
def float_div (N M : Nat) : float_t :=
  if M = 0 then (if N = 0 then float_t.nan else float_t.inf)
  else float_t.finite (float_round N M).1 (float_round N M).2

/-- Digits of `k` in the format `%.3f`, where `k` counts thousandths. -/
def decimal3 (k : Nat) : String :=
  toString (k / 1000) ++ "." ++
    String.mk [Nat.digitChar (k / 100 % 10), Nat.digitChar (k / 10 % 10), Nat.digitChar (k % 10)]

/-- Number of thousandths printed by `%.3f` for the float `num / den`. -/
def float_millis (num den : Nat) : Nat := round_half_even (1000 * num) den

/-- Conversion `%.3f` of `printf`: the exact value of the float, rounded to three
decimals. The texts for the two non-finite results of a division by a zero rate
are those of glibc on x86-64. -/
def printf_3f : float_t → String
  | float_t.finite num den => decimal3 (float_millis num den)
  | float_t.inf => "inf"
  | float_t.nan => "-nan"

/-! ## The annotation writer -/

/-- The difference `event.jtstamp - ri->startjtime` of two `jack_nframes_t`
(recolino.c:190): unsigned 32-bit subtraction. -/
def elapsed_frames (jtstamp startjtime : Nat) : Nat :=
  Int.toNat (((jtstamp : Int) - (startjtime : Int)) % (NFRAMES_MOD : Int))

/-- The assignment to `tsec` (recolino.c:190): the difference is converted to
`float` and divided by the sample rate of the file, converted to `float`. -/
def tsec (startjtime samplerate : Nat) (event : recolino_event_t) : float_t :=
  float_div (float_of_uint (elapsed_frames event.jtstamp startjtime)) (float_of_uint samplerate)

/-- Text of `event.value` under `%c` (the value converted to `unsigned char`)
for a key event and under `%u` for a MIDI event. -/
def value_text (event : recolino_event_t) : String :=
  match event.evtype with
  | recolino_evtype.RECOLINO_EVENT_KEY => String.singleton (Char.ofNat (Int.toNat (event.value % 256)))
  | recolino_evtype.RECOLINO_EVENT_MIDI => toString (Int.toNat (event.value % 4294967296))

/-- The line produced by `RECOLINO_OUTPUT_KEY` / `RECOLINO_OUTPUT_MIDI`
(recolino.c:50-51) for one event. -/
def output_line (startjtime samplerate : Nat) (event : recolino_event_t) : String :=
  printf_3f (tsec startjtime samplerate event) ++ " " ++ value_text event ++ "\n"

/-- The switch of `output_thread` (recolino.c:190-209) for one event. -/
def output_event {α : Type} (ri : recolino_info_t α) (event : recolino_event_t) :
    recolino_info_t α :=
  let line := output_line ri.startjtime ri.samplerate event
  { ri with
      annout := ri.annout ++ [line]
      errout := if ri.echo then ri.errout ++ [line] else ri.errout }

/-- The inner loop of `output_thread` (recolino.c:183-210); `fuel` bounds the
number of iterations. -/
def output_drain {α : Type} : Nat → recolino_info_t α → recolino_info_t α
  | 0, ri => ri
  | fuel + 1, ri =>
    if sizeof_event ≤ jack_ringbuffer_read_space sizeof_event ri.rbevent then
      let r := jack_ringbuffer_read sizeof_event ri.rbevent sizeof_event
      output_drain fuel (r.1.foldl output_event { ri with rbevent := r.2 })
    else ri

/-! ## A sample type for worked examples -/

/-- A non-negative finite single-precision sample `num / den`. -/
structure binary32 where
  num : Nat
  den : Nat
deriving DecidableEq, Repr

/-- The float nearest to the decimal literal `n / d`. -/
def binary32.ofFrac (n d : Nat) : binary32 := ⟨(float_round n d).1, (float_round n d).2⟩

/-- Single-precision addition: the exact sum, rounded. -/
instance : Add binary32 :=
  ⟨fun a b => binary32.ofFrac (a.num * b.den + b.num * a.den) (a.den * b.den)⟩

instance : Zero binary32 := ⟨⟨0, 1⟩⟩

/-! ## Worked inputs -/

/-- An event ring buffer as created by `main` holding 84 events: the 1023
usable bytes leave 15 free, room for exactly one more record. -/
def rbevent_one_free : jack_ringbuffer_t recolino_event_t :=
  { (jack_ringbuffer_create recolino_event_t (RECOLINO_RB_SIZE_EVENT * sizeof_event)) with
    data := List.replicate 84 ⟨recolino_evtype.RECOLINO_EVENT_KEY, 500, 120⟩ }

/-- A running session whose audio ring buffer holds two samples. -/
def session_two_samples : recolino_info_t Int :=
  { main_init Int [] 1 48000 false with
    running := true
    rbaudio := { (jack_ringbuffer_create Int ( RECOLINO_RB_SIZE_AUDIO * sizeof_sample)) with
                 data := [7, 9] } }

/-- A block of eight frames without terminal or MIDI input. -/
def cycle_eight (F : Nat) : jack_cycle Int :=
  { nframes := 8, last_frame_time := F, out := List.replicate 8 0, stdin := [], midi := [] }

/-- A running session with a full block of audio queued and room for exactly one
more event record. -/
def session_one_free : recolino_info_t Int :=
  { main_init Int [] 1 48000 false with
    running := true
    rbaudio := { (jack_ringbuffer_create Int ( RECOLINO_RB_SIZE_AUDIO * sizeof_sample)) with
                 data := List.replicate 8 0 }
    rbevent := rbevent_one_free }

/-- A running session with empty ring buffers. -/
def session_running : recolino_info_t Int :=
  { main_init Int [] 1 48000 false with running := true }

/-- A block starting at frame 1000 with one MIDI message at offset 10. -/
def cycle_midi (status note velocity : Nat) : jack_cycle Int :=
  { nframes := 8, last_frame_time := 1000, out := List.replicate 8 0, stdin := []
    midi := [⟨10, [status, note, velocity]⟩] }

/-- Two running invocations; the frame counter reads 0 at the first one. -/
def invocations_zero_first : List (Bool × jack_cycle Int) :=
  [(true, cycle_eight 0), (true, cycle_eight 1024)]

/-- The initial session for a two-channel file of one frame, `[0.2, 0.3]`. -/
def session_stereo : recolino_info_t binary32 :=
  main_init binary32 [binary32.ofFrac 1 5, binary32.ofFrac 3 10] 2 48000 false

/-- A session of a file of the given rate whose playback started at frame 1000 and
whose event ring buffer holds one key event `x` stamped `jtstamp`. -/
def session_key_event (samplerate jtstamp : Nat) : recolino_info_t Int :=
  { main_init Int [] 1 samplerate false with
    running := true
    startjtime := 1000
    rbevent := { (jack_ringbuffer_create recolino_event_t
                    (RECOLINO_RB_SIZE_EVENT * sizeof_event)) with
                 data := [⟨recolino_evtype.RECOLINO_EVENT_KEY, jtstamp, 120⟩] } }

/-- A block whose MIDI buffer holds a note-off followed by a note-on. -/
def cycle_off_on : jack_cycle Int :=
  { nframes := 8, last_frame_time := 1000, out := List.replicate 8 0, stdin := []
    midi := [⟨10, [0x80, 60, 0]⟩, ⟨10, [0x90, 60, 100]⟩] }

/-- A block starting at frame 1000 whose MIDI buffer holds 85 timing-clock
messages (status 0xf8) followed by one note-on at offset 10. -/
def cycle_crowded : jack_cycle Int :=
  { nframes := 8, last_frame_time := 1000, out := List.replicate 8 0, stdin := []
    midi := List.replicate 85 ⟨0, [0xf8]⟩ ++ [⟨10, [0x90, 60, 100]⟩] }

/-! ## Ring buffer facts -/

theorem write_fits {α : Type} (rs : Nat) (rb : jack_ringbuffer_t α) (x : α)
    (h : rs ≤ jack_ringbuffer_write_space rs rb) :
    jack_ringbuffer_write rs rb x = { rb with data := rb.data ++ [x] } := by
  simp [jack_ringbuffer_write, h]

theorem write_space_after_write {α : Type} (rs : Nat) (rb : jack_ringbuffer_t α) (x : α)
    (h : rs ≤ jack_ringbuffer_write_space rs rb) :
    jack_ringbuffer_write_space rs (jack_ringbuffer_write rs rb x)
      = jack_ringbuffer_write_space rs rb - rs := by
  rw [write_fits rs rb x h]
  simp only [jack_ringbuffer_write_space, List.length_append, List.length_singleton]
  rw [Nat.mul_add, Nat.mul_one]
  omega

theorem read_whole_records {α : Type} (rs : Nat) (hrs : 0 < rs) (rb : jack_ringbuffer_t α)
    (n : Nat) :
    jack_ringbuffer_read rs rb (min (jack_ringbuffer_read_space rs rb) (n * rs))
      = (rb.data.take (min rb.data.length n),
          { rb with data := rb.data.drop (min rb.data.length n) }) := by
  have hk : min (min (rs * rb.data.length) (n * rs)) (rs * rb.data.length) / rs
      = min rb.data.length n := by
    rcases Nat.le_total rb.data.length n with h | h
    · have h2 : rs * rb.data.length ≤ n * rs := by
        rw [Nat.mul_comm n rs]; exact Nat.mul_le_mul_left rs h
      rw [Nat.min_eq_left h2, Nat.min_self, Nat.min_eq_left h, Nat.mul_div_cancel_left _ hrs]
    · have h2 : n * rs ≤ rs * rb.data.length := by
        rw [Nat.mul_comm n rs]; exact Nat.mul_le_mul_left rs h
      rw [Nat.min_eq_right h2, Nat.min_eq_left h2, Nat.min_eq_right h, Nat.mul_div_cancel _ hrs]
  simp only [jack_ringbuffer_read, jack_ringbuffer_read_space, hk]

/-! ## Facts about `process` -/

theorem process_running {α : Type} (cyc : jack_cycle α) (ri : recolino_info_t α)
    (h : ri.running = true) :
    process cyc ri =
      (poll_midi cyc.last_frame_time cyc.midi
          (poll_keyboard cyc.last_frame_time cyc.stdin (process_audio cyc ri).1),
        (process_audio cyc ri).2) := by
  simp [process, h]

theorem process_not_running {α : Type} (cyc : jack_cycle α) (ri : recolino_info_t α)
    (h : ri.running = false) : process cyc ri = (ri, cyc.out) := by
  simp [process, h]

/-- The keyboard loop changes nothing but the event ring buffer and `errout`. -/
theorem poll_keyboard_frame {α : Type} (F : Nat) (ks : List Int) (ri : recolino_info_t α) :
    (poll_keyboard F ks ri).rbaudio = ri.rbaudio ∧
    (poll_keyboard F ks ri).startjtime = ri.startjtime ∧
    (poll_keyboard F ks ri).running = ri.running ∧
    (poll_keyboard F ks ri).jportmidi = ri.jportmidi ∧
    (poll_keyboard F ks ri).annout = ri.annout := by
  induction ks generalizing ri with
  | nil => simp [poll_keyboard]
  | cons c rest ih =>
    have h := ih (process_key F ri c)
    simp only [poll_keyboard]
    refine ⟨h.1.trans ?_, h.2.1.trans ?_, h.2.2.1.trans ?_, h.2.2.2.1.trans ?_, h.2.2.2.2.trans ?_⟩ <;>
      (unfold process_key; split <;> rfl)

/-- The MIDI loop changes nothing but the event ring buffer. -/
theorem midi_loop_frame {α : Type} (F : Nat) (ms : List jack_midi_event_t)
    (ri : recolino_info_t α) :
    (midi_loop F ms ri).rbaudio = ri.rbaudio ∧
    (midi_loop F ms ri).startjtime = ri.startjtime ∧
    (midi_loop F ms ri).running = ri.running ∧
    (midi_loop F ms ri).errout = ri.errout ∧
    (midi_loop F ms ri).annout = ri.annout := by
  induction ms generalizing ri with
  | nil => simp [midi_loop]
  | cons m rest ih =>
    have h := ih (process_midi_event F ri m)
    simp only [midi_loop]
    refine ⟨h.1.trans ?_, h.2.1.trans ?_, h.2.2.1.trans ?_, h.2.2.2.1.trans ?_, h.2.2.2.2.trans ?_⟩ <;>
      (unfold process_midi_event; split <;> rfl)

/-- The MIDI section changes nothing but the event ring buffer and `errout`. -/
theorem poll_midi_frame {α : Type} (F : Nat) (ms : List jack_midi_event_t)
    (ri : recolino_info_t α) :
    (poll_midi F ms ri).rbaudio = ri.rbaudio ∧
    (poll_midi F ms ri).startjtime = ri.startjtime ∧
    (poll_midi F ms ri).running = ri.running := by
  unfold poll_midi
  by_cases hp : ri.jportmidi = true
  · by_cases hs : jack_ringbuffer_write_space sizeof_event ri.rbevent < ms.length * sizeof_event
    · simp [hp, hs]
    · simp only [hp, hs, if_true, if_false]
      exact ⟨(midi_loop_frame F ms ri).1, (midi_loop_frame F ms ri).2.1,
        (midi_loop_frame F ms ri).2.2.1⟩
  · simp [hp]

/-- The start time after one invocation: captured from the frame counter when the
session is running and the stored value is 0, kept otherwise. -/
theorem process_startjtime {α : Type} (cyc : jack_cycle α) (ri : recolino_info_t α) :
    (process cyc ri).1.startjtime =
      if ri.running = true ∧ ri.startjtime = 0 then cyc.last_frame_time else ri.startjtime := by
  cases hrun : ri.running with
  | false => simp [process_not_running cyc ri hrun]
  | true =>
    rw [process_running cyc ri hrun]
    simp only [(poll_midi_frame _ _ _).2.1, (poll_keyboard_frame _ _ _).2.1, true_and]
    unfold process_audio
    by_cases h0 : ri.startjtime = 0
    · simp only [h0, if_true]
      split <;> rfl
    · simp only [h0, if_false]
      split <;> rfl

/-- The audio ring buffer and the output block after one running invocation. -/
theorem process_audio_result {α : Type} (cyc : jack_cycle α) (ri : recolino_info_t α) :
    (process_audio cyc ri).1.rbaudio.data
        = ri.rbaudio.data.drop (min ri.rbaudio.data.length cyc.nframes) ∧
    (process_audio cyc ri).2
        = ri.rbaudio.data.take (min ri.rbaudio.data.length cyc.nframes)
            ++ cyc.out.drop (min ri.rbaudio.data.length cyc.nframes) := by
  have hread := read_whole_records sizeof_sample (by decide) ri.rbaudio cyc.nframes
  have hlen : (ri.rbaudio.data.take (min ri.rbaudio.data.length cyc.nframes)).length
      = min ri.rbaudio.data.length cyc.nframes := by
    rw [List.length_take]; omega
  unfold process_audio
  by_cases h0 : ri.startjtime = 0 <;>
    by_cases hu : jack_ringbuffer_read_space sizeof_sample ri.rbaudio < cyc.nframes <;>
    simp [h0, hu, hread, hlen]

/-- The underrun message is written exactly when the number of queued bytes is
below the number of frames of the block. -/
theorem process_audio_errout {α : Type} (cyc : jack_cycle α) (ri : recolino_info_t α) :
    (process_audio cyc ri).1.errout =
      if sizeof_sample * ri.rbaudio.data.length < cyc.nframes
      then ri.errout ++ ["audio buffer underrun!\n"] else ri.errout := by
  unfold process_audio
  by_cases h0 : ri.startjtime = 0 <;>
    by_cases hu : sizeof_sample * ri.rbaudio.data.length < cyc.nframes <;>
    simp [h0, hu, jack_ringbuffer_read_space]

/-! ## Facts about the annotation writer -/

/-- With enough fuel the inner loop of `output_thread` writes one line per queued
event, oldest first, and leaves the event ring buffer empty. -/
theorem output_drain_all {α : Type} (fuel : Nat) (ri : recolino_info_t α)
    (h : ri.rbevent.data.length ≤ fuel) :
    (output_drain fuel ri).annout
        = ri.annout ++ ri.rbevent.data.map (output_line ri.startjtime ri.samplerate) ∧
    (output_drain fuel ri).errout
        = (if ri.echo then
            ri.errout ++ ri.rbevent.data.map (output_line ri.startjtime ri.samplerate)
          else ri.errout) ∧
    (output_drain fuel ri).rbevent.data = [] := by
  induction fuel generalizing ri with
  | zero =>
    have h0 : ri.rbevent.data = [] := List.length_eq_zero.mp (Nat.le_zero.mp h)
    simp [output_drain, h0]
  | succ fuel ih =>
    cases hd : ri.rbevent.data with
    | nil =>
      simp [output_drain, jack_ringbuffer_read_space, hd, sizeof_event]
    | cons e rest =>
      have hlen : rest.length ≤ fuel := by
        rw [hd] at h; simpa using h
      have hspace : sizeof_event ≤ jack_ringbuffer_read_space sizeof_event ri.rbevent := by
        simp only [jack_ringbuffer_read_space, hd, List.length_cons, sizeof_event]; omega
      have hk : min sizeof_event (jack_ringbuffer_read_space sizeof_event ri.rbevent) / sizeof_event
          = 1 := by
        rw [Nat.min_eq_left hspace]; decide
      have hstep : output_drain (fuel + 1) ri
          = output_drain fuel (output_event { ri with rbevent := { ri.rbevent with data := rest } } e) := by
        simp only [output_drain, hspace, if_true, jack_ringbuffer_read, hk, hd, List.take_succ_cons,
          List.take_zero, List.drop_succ_cons, List.drop_zero, List.foldl_cons, List.foldl_nil]
      rw [hstep]
      have h2 := ih (output_event { ri with rbevent := { ri.rbevent with data := rest } } e)
        (by simpa [output_event] using hlen)
      refine ⟨h2.1.trans ?_, h2.2.1.trans ?_, h2.2.2⟩
      · simp [output_event]
      · cases hecho : ri.echo <;> simp [output_event, hecho]

/-! ## Claims about the realtime callback -/

/-- C3 (evaluated at the failing input): with two samples queued (8 bytes) and a
block of 8 frames, fewer samples than a full block are available, yet `process`
writes no underrun message: the test compares the byte count with the frame
count. -/
theorem C3_underrun_not_logged :
    session_two_samples.rbaudio.data.length < (cycle_eight 1000).nframes ∧
    (process (cycle_eight 1000) session_two_samples).1.errout = [] ∧
    (process (cycle_eight 1000) session_two_samples).2 = [7, 9, 0, 0, 0, 0, 0, 0] := by
  decide

/-- C4: a running invocation of `process` with `a` samples queued and a block of
`nframes` removes the `k = min a nframes` oldest samples from the audio ring
buffer, stores them in order at positions `0 .. k-1` of the output block, leaves
positions `k .. nframes-1` of the block as they were, and leaves the other
`a - k` samples queued in order. -/
theorem C4_process_copies_oldest_samples {α : Type} (cyc : jack_cycle α)
    (ri : recolino_info_t α) (hrun : ri.running = true) (hout : cyc.out.length = cyc.nframes) :
    (process cyc ri).2.length = cyc.nframes ∧
    (process cyc ri).2.take (min ri.rbaudio.data.length cyc.nframes)
        = ri.rbaudio.data.take (min ri.rbaudio.data.length cyc.nframes) ∧
    (process cyc ri).2.drop (min ri.rbaudio.data.length cyc.nframes)
        = cyc.out.drop (min ri.rbaudio.data.length cyc.nframes) ∧
    (process cyc ri).1.rbaudio.data
        = ri.rbaudio.data.drop (min ri.rbaudio.data.length cyc.nframes) ∧
    (process cyc ri).1.rbaudio.data.length
        = ri.rbaudio.data.length - min ri.rbaudio.data.length cyc.nframes := by
  have hres := process_audio_result cyc ri
  have hlen : (ri.rbaudio.data.take (min ri.rbaudio.data.length cyc.nframes)).length
      = min ri.rbaudio.data.length cyc.nframes := by
    rw [List.length_take]; omega
  rw [process_running cyc ri hrun]
  simp only [(poll_midi_frame _ _ _).1, (poll_keyboard_frame _ _ _).1, hres.1, hres.2]
  refine ⟨?_, ?_, ?_, trivial, ?_⟩
  · rw [List.length_append, hlen, List.length_drop, hout]; omega
  · rw [List.take_left' hlen]
  · rw [List.drop_left' hlen]
  · rw [List.length_drop]

/-- Witness of C4: two samples queued, a block of eight frames. -/
theorem C4_process_copies_oldest_samples_witness :
    (process (cycle_eight 1000) session_two_samples).2.length = (cycle_eight 1000).nframes ∧
    (process (cycle_eight 1000) session_two_samples).2.take
          (min session_two_samples.rbaudio.data.length (cycle_eight 1000).nframes)
        = session_two_samples.rbaudio.data.take
          (min session_two_samples.rbaudio.data.length (cycle_eight 1000).nframes) ∧
    (process (cycle_eight 1000) session_two_samples).2.drop
          (min session_two_samples.rbaudio.data.length (cycle_eight 1000).nframes)
        = (cycle_eight 1000).out.drop
          (min session_two_samples.rbaudio.data.length (cycle_eight 1000).nframes) ∧
    (process (cycle_eight 1000) session_two_samples).1.rbaudio.data
        = session_two_samples.rbaudio.data.drop
          (min session_two_samples.rbaudio.data.length (cycle_eight 1000).nframes) ∧
    (process (cycle_eight 1000) session_two_samples).1.rbaudio.data.length
        = session_two_samples.rbaudio.data.length
          - min session_two_samples.rbaudio.data.length (cycle_eight 1000).nframes :=
  C4_process_copies_oldest_samples (cycle_eight 1000) session_two_samples (by decide) (by decide)

/-- The event ring buffer after the keyboard loop depends on nothing but the
event ring buffer before it. -/
theorem poll_keyboard_rbevent {α : Type} (F : Nat) (ks : List Int)
    (ri1 ri2 : recolino_info_t α) (h : ri1.rbevent = ri2.rbevent) :
    (poll_keyboard F ks ri1).rbevent = (poll_keyboard F ks ri2).rbevent := by
  induction ks generalizing ri1 ri2 with
  | nil => simpa [poll_keyboard] using h
  | cons c rest ih =>
    simp only [poll_keyboard]
    apply ih
    unfold process_key
    rw [h]
    split <;> rfl

theorem process_audio_rbevent {α : Type} (cyc : jack_cycle α) (ri : recolino_info_t α) :
    (process_audio cyc ri).1.rbevent = ri.rbevent ∧
    (process_audio cyc ri).1.jportmidi = ri.jportmidi := by
  unfold process_audio
  by_cases h0 : ri.startjtime = 0 <;>
    by_cases hu : sizeof_sample * ri.rbaudio.data.length < cyc.nframes <;>
    simp [h0, hu, jack_ringbuffer_read_space]

theorem poll_keyboard_append {α : Type} (F : Nat) (pre post : List Int)
    (ri : recolino_info_t α) :
    poll_keyboard F (pre ++ post) ri = poll_keyboard F post (poll_keyboard F pre ri) := by
  induction pre generalizing ri with
  | nil => rfl
  | cons c rest ih => exact ih (process_key F ri c)

/-- When the guard of the MIDI section holds, the loop queues one event per
note-on message, in order, and nothing for any other message. -/
theorem midi_loop_data {α : Type} (F : Nat) (ms : List jack_midi_event_t)
    (ri : recolino_info_t α)
    (h : ms.length * sizeof_event ≤ jack_ringbuffer_write_space sizeof_event ri.rbevent) :
    (midi_loop F ms ri).rbevent.data = ri.rbevent.data ++ ms.filterMap (fun m =>
      if Nat.land (m.buffer.getD 0 0) 0xf0 = 0x90 then
        some (⟨recolino_evtype.RECOLINO_EVENT_MIDI, (F + m.time) % NFRAMES_MOD,
          (m.buffer.getD 1 0 : Nat)⟩ : recolino_event_t)
      else none) := by
  induction ms generalizing ri with
  | nil => simp [midi_loop]
  | cons m rest ih =>
    simp only [midi_loop]
    have hlen : (rest.length + 1) * sizeof_event
        ≤ jack_ringbuffer_write_space sizeof_event ri.rbevent := by simpa using h
    by_cases hn : Nat.land (m.buffer.getD 0 0) 0xf0 = 0x90
    · have hfit : sizeof_event ≤ jack_ringbuffer_write_space sizeof_event ri.rbevent := by
        have : sizeof_event ≤ (rest.length + 1) * sizeof_event := Nat.le_mul_of_pos_left _ (by omega)
        omega
      have hstep : process_midi_event F ri m
          = { ri with rbevent := (jack_ringbuffer_write sizeof_event ri.rbevent
                ⟨recolino_evtype.RECOLINO_EVENT_MIDI, (F + m.time) % NFRAMES_MOD,
                  (m.buffer.getD 1 0 : Nat)⟩) } := by
        unfold process_midi_event
        rw [if_pos hn]
      have hroom : rest.length * sizeof_event
          ≤ jack_ringbuffer_write_space sizeof_event (process_midi_event F ri m).rbevent := by
        rw [hstep]
        simp only []
        rw [write_space_after_write _ _ _ hfit]
        rw [Nat.add_mul, Nat.one_mul] at hlen
        omega
      rw [ih _ hroom, hstep]
      simp only []
      rw [write_fits _ _ _ hfit, List.filterMap_cons, if_pos hn]
      simp only [List.append_assoc, List.singleton_append]
    · have hstep : process_midi_event F ri m = ri := by
        unfold process_midi_event
        rw [if_neg hn]
      have hroom : rest.length * sizeof_event
          ≤ jack_ringbuffer_write_space sizeof_event ri.rbevent := by
        rw [Nat.add_mul, Nat.one_mul] at hlen
        omega
      rw [hstep, ih _ hroom, List.filterMap_cons, if_neg hn]

/-- The event ring buffer and `errout` after the MIDI section. -/
theorem poll_midi_result {α : Type} (F : Nat) (ms : List jack_midi_event_t)
    (ri : recolino_info_t α) (hport : ri.jportmidi = true) :
    (poll_midi F ms ri).rbevent.data =
      (if jack_ringbuffer_write_space sizeof_event ri.rbevent < ms.length * sizeof_event then
        ri.rbevent.data
      else ri.rbevent.data ++ ms.filterMap (fun m =>
        if Nat.land (m.buffer.getD 0 0) 0xf0 = 0x90 then
          some (⟨recolino_evtype.RECOLINO_EVENT_MIDI, (F + m.time) % NFRAMES_MOD,
            (m.buffer.getD 1 0 : Nat)⟩ : recolino_event_t)
        else none)) ∧
    (poll_midi F ms ri).errout =
      (if jack_ringbuffer_write_space sizeof_event ri.rbevent < ms.length * sizeof_event then
        ri.errout ++ ["keyboard buffer overrun!\n"]
      else ri.errout) := by
  unfold poll_midi
  by_cases hs : jack_ringbuffer_write_space sizeof_event ri.rbevent < ms.length * sizeof_event
  · simp [hport, hs]
  · simp only [hport, hs, if_true, if_false]
    exact ⟨midi_loop_data F ms ri (Nat.le_of_not_lt hs), (midi_loop_frame F ms ri).2.2.2.1⟩

/-- C5: for a byte read into `c` during an invocation of `process`: when the event
ring buffer has write space for one event record, a key event with value `c`
and the current frame counter as time stamp is queued behind the events already
there and nothing is logged; otherwise the event ring buffer stays exactly as it
was and the overrun message is logged. A later drain by the annotation writer
prints the previously queued events in push order in both cases. The keyboard
loop of `process` runs this step once per byte, in order. -/
theorem C5_key_event_push_or_drop {α : Type} (F : Nat) (ri : recolino_info_t α) (c : Int) :
    (process_key F ri c).rbevent =
      (if sizeof_event ≤ jack_ringbuffer_write_space sizeof_event ri.rbevent then
        { ri.rbevent with data := ri.rbevent.data ++
            [⟨recolino_evtype.RECOLINO_EVENT_KEY, F, c⟩] }
      else ri.rbevent) ∧
    (process_key F ri c).errout =
      (if sizeof_event ≤ jack_ringbuffer_write_space sizeof_event ri.rbevent then ri.errout
      else ri.errout ++ ["keyboard buffer overrun!\n"]) ∧
    (∀ k : Nat, (output_drain ((process_key F ri c).rbevent.data.length + k)
        (process_key F ri c)).annout =
      ri.annout ++ ri.rbevent.data.map (output_line ri.startjtime ri.samplerate) ++
        (if sizeof_event ≤ jack_ringbuffer_write_space sizeof_event ri.rbevent then
          [output_line ri.startjtime ri.samplerate ⟨recolino_evtype.RECOLINO_EVENT_KEY, F, c⟩]
        else [])) ∧
    (∀ pre post : List Int, poll_keyboard F (pre ++ c :: post) ri =
      poll_keyboard F post (process_key F (poll_keyboard F pre ri) c)) := by
  have hdrain : ∀ k : Nat, (output_drain ((process_key F ri c).rbevent.data.length + k)
        (process_key F ri c)).annout =
      (process_key F ri c).annout ++ (process_key F ri c).rbevent.data.map
        (output_line (process_key F ri c).startjtime (process_key F ri c).samplerate) :=
    fun k => (output_drain_all _ _ (Nat.le_add_right _ k)).1
  by_cases hs : sizeof_event ≤ jack_ringbuffer_write_space sizeof_event ri.rbevent
  · have hk : process_key F ri c = { ri with rbevent := { ri.rbevent with
        data := ri.rbevent.data ++ [⟨recolino_evtype.RECOLINO_EVENT_KEY, F, c⟩] } } := by
      simp [process_key, Nat.not_lt.mpr hs, write_fits _ _ _ hs]
    refine ⟨?_, ?_, ?_, ?_⟩
    · simp [hk, hs]
    · simp [hk, hs]
    · intro k
      rw [hdrain k]
      simp [hk, hs]
    · intro pre post
      rw [poll_keyboard_append]; rfl
  · have hk : process_key F ri c
        = { ri with errout := ri.errout ++ ["keyboard buffer overrun!\n"] } := by
      simp [process_key, Nat.lt_of_not_le hs]
    refine ⟨?_, ?_, ?_, ?_⟩
    · simp [hk, hs]
    · simp [hk, hs]
    · intro k
      rw [hdrain k]
      simp [hk, hs]
    · intro pre post
      rw [poll_keyboard_append]; rfl

set_option maxRecDepth 8000 in
/-- For a byte, the test `(b & 0xf0) == 0x90` holds exactly when the high nibble
is 9. -/
theorem high_nibble_note_on : ∀ b : Nat, b < 256 → (Nat.land b 0xf0 = 0x90 ↔ b / 16 = 9) := by
  decide

set_option maxRecDepth 8000 in
/-- C2 (refuted as stated): the event ring buffer is empty, so it has room for 85
event records, and the block holds 85 timing-clock messages followed by one
note-on. The guard of the MIDI section counts all 86 messages (1032 bytes
against 1023 free): an overrun is logged and the note-on event is not queued. -/
theorem C2_note_on_dropped_in_crowded_block :
    session_running.rbevent.data = [] ∧
    85 * sizeof_event ≤ jack_ringbuffer_write_space sizeof_event session_running.rbevent ∧
    cycle_crowded.midi.length = 86 ∧
    cycle_crowded.midi.filterMap (fun m =>
      if Nat.land (m.buffer.getD 0 0) 0xf0 = 0x90 then some m else none)
        = [⟨10, [0x90, 60, 100]⟩] ∧
    (process cycle_crowded session_running).1.rbevent.data = [] ∧
    (process cycle_crowded session_running).1.errout
      = ["audio buffer underrun!\n", "keyboard buffer overrun!\n"] := by
  decide

/-- C2 (amended): in a running invocation of `process` at frame counter `F` whose
event ring buffer, after the keyboard loop, has write space for one record per
message of the block (note-on or not), the events queued behind those already
there are, in message order, one MIDI event per message whose status byte has
high nibble 0x9, stamped `F + offset` (in 32-bit arithmetic) and carrying the
second byte as value, and nothing for any other message. A note-on (0x90, note
60) at offset 10 with `F = 1000` gives time stamp 1010 and value 60; a note-off
(0x80) gives no event. -/
theorem C2_midi_note_on_event {α : Type} (cyc : jack_cycle α) (ri : recolino_info_t α)
    (hrun : ri.running = true) (hport : ri.jportmidi = true)
    (hroom : cyc.midi.length * sizeof_event ≤ jack_ringbuffer_write_space sizeof_event
      (poll_keyboard cyc.last_frame_time cyc.stdin ri).rbevent) :
    (process cyc ri).1.rbevent.data =
      (poll_keyboard cyc.last_frame_time cyc.stdin ri).rbevent.data ++
        cyc.midi.filterMap (fun m =>
          if Nat.land (m.buffer.getD 0 0) 0xf0 = 0x90 then
            some (⟨recolino_evtype.RECOLINO_EVENT_MIDI,
              (cyc.last_frame_time + m.time) % NFRAMES_MOD,
              (m.buffer.getD 1 0 : Nat)⟩ : recolino_event_t)
          else none) ∧
    (∀ b : Nat, b < 256 → (Nat.land b 0xf0 = 0x90 ↔ b / 16 = 9)) ∧
    (process (cycle_midi 0x90 60 100) session_running).1.rbevent.data
      = [⟨recolino_evtype.RECOLINO_EVENT_MIDI, 1010, 60⟩] ∧
    (process (cycle_midi 0x80 60 0) session_running).1.rbevent.data = [] := by
  have hev : (poll_keyboard cyc.last_frame_time cyc.stdin (process_audio cyc ri).1).rbevent
      = (poll_keyboard cyc.last_frame_time cyc.stdin ri).rbevent :=
    poll_keyboard_rbevent _ _ _ _ (process_audio_rbevent cyc ri).1
  have hp : (poll_keyboard cyc.last_frame_time cyc.stdin (process_audio cyc ri).1).jportmidi
      = true := by
    rw [(poll_keyboard_frame _ _ _).2.2.2.1, (process_audio_rbevent cyc ri).2, hport]
  refine ⟨?_, high_nibble_note_on, by decide, by decide⟩
  rw [process_running cyc ri hrun]
  simp only []
  rw [(poll_midi_result _ _ _ hp).1, hev, if_neg (Nat.not_lt.mpr hroom)]

/-- Witness of C2 (amended): the note-on block in a running session with empty
buffers. -/
theorem C2_midi_note_on_event_witness :
    (process (cycle_midi 0x90 60 100) session_running).1.rbevent.data =
      (poll_keyboard (cycle_midi 0x90 60 100).last_frame_time (cycle_midi 0x90 60 100).stdin
          session_running).rbevent.data ++
        (cycle_midi 0x90 60 100).midi.filterMap (fun m =>
          if Nat.land (m.buffer.getD 0 0) 0xf0 = 0x90 then
            some (⟨recolino_evtype.RECOLINO_EVENT_MIDI,
              ((cycle_midi 0x90 60 100).last_frame_time + m.time) % NFRAMES_MOD,
              (m.buffer.getD 1 0 : Nat)⟩ : recolino_event_t)
          else none) :=
  (C2_midi_note_on_event (cycle_midi 0x90 60 100) session_running (by decide) (by decide)
    (by decide)).1

/-- C6 (refuted as stated): with room for exactly one event record, a block
holding a note-off followed by a note-on leaves the event ring buffer as it was
and logs an overrun: the note-on event is not queued. -/
theorem C6_note_on_dropped_with_room_for_one :
    sizeof_event ≤ jack_ringbuffer_write_space sizeof_event session_one_free.rbevent ∧
    jack_ringbuffer_write_space sizeof_event session_one_free.rbevent < 2 * sizeof_event ∧
    (process cycle_off_on session_one_free).1.rbevent = session_one_free.rbevent ∧
    (process cycle_off_on session_one_free).1.errout = ["keyboard buffer overrun!\n"] := by
  decide

/-- C6 (amended): in a running invocation of `process` the MIDI section tests the
write space once, against the number of all messages of the block times the
record size. When the space is smaller it logs one overrun and queues no event
of the block; otherwise it logs nothing and queues the event of every note-on
message, in order. -/
theorem C6_midi_block_overrun_policy {α : Type} (cyc : jack_cycle α) (ri : recolino_info_t α)
    (hrun : ri.running = true) (hport : ri.jportmidi = true) :
    (process cyc ri).1.rbevent.data =
      (if jack_ringbuffer_write_space sizeof_event
            (poll_keyboard cyc.last_frame_time cyc.stdin ri).rbevent
          < cyc.midi.length * sizeof_event then
        (poll_keyboard cyc.last_frame_time cyc.stdin ri).rbevent.data
      else
        (poll_keyboard cyc.last_frame_time cyc.stdin ri).rbevent.data ++
          cyc.midi.filterMap (fun m =>
            if Nat.land (m.buffer.getD 0 0) 0xf0 = 0x90 then
              some (⟨recolino_evtype.RECOLINO_EVENT_MIDI,
                (cyc.last_frame_time + m.time) % NFRAMES_MOD,
                (m.buffer.getD 1 0 : Nat)⟩ : recolino_event_t)
            else none)) ∧
    (process cyc ri).1.errout =
      (if jack_ringbuffer_write_space sizeof_event
            (poll_keyboard cyc.last_frame_time cyc.stdin ri).rbevent
          < cyc.midi.length * sizeof_event then
        (poll_keyboard cyc.last_frame_time cyc.stdin (process_audio cyc ri).1).errout
          ++ ["keyboard buffer overrun!\n"]
      else (poll_keyboard cyc.last_frame_time cyc.stdin (process_audio cyc ri).1).errout) := by
  have hev : (poll_keyboard cyc.last_frame_time cyc.stdin (process_audio cyc ri).1).rbevent
      = (poll_keyboard cyc.last_frame_time cyc.stdin ri).rbevent :=
    poll_keyboard_rbevent _ _ _ _ (process_audio_rbevent cyc ri).1
  have hp : (poll_keyboard cyc.last_frame_time cyc.stdin (process_audio cyc ri).1).jportmidi
      = true := by
    rw [(poll_keyboard_frame _ _ _).2.2.2.1, (process_audio_rbevent cyc ri).2, hport]
  rw [process_running cyc ri hrun]
  simp only []
  rw [(poll_midi_result _ _ _ hp).1, (poll_midi_result _ _ _ hp).2, hev]
  exact ⟨rfl, rfl⟩

/-- Witness of C6 (amended): the note-off / note-on block with room for one record. -/
theorem C6_midi_block_overrun_policy_witness :
    session_one_free.running = true ∧ session_one_free.jportmidi = true ∧
    (process cycle_off_on session_one_free).1.errout =
      (if jack_ringbuffer_write_space sizeof_event
            (poll_keyboard cycle_off_on.last_frame_time cycle_off_on.stdin
              session_one_free).rbevent
          < cycle_off_on.midi.length * sizeof_event then
        (poll_keyboard cycle_off_on.last_frame_time cycle_off_on.stdin
            (process_audio cycle_off_on session_one_free).1).errout
          ++ ["keyboard buffer overrun!\n"]
      else (poll_keyboard cycle_off_on.last_frame_time cycle_off_on.stdin
            (process_audio cycle_off_on session_one_free).1).errout) :=
  ⟨by decide, by decide,
    (C6_midi_block_overrun_policy cycle_off_on session_one_free (by decide) (by decide)).2⟩

/-- The start time after a sequence of invocations, from any state. -/
theorem process_run_startjtime {α : Type} (invs : List (Bool × jack_cycle α))
    (ri : recolino_info_t α) :
    (process_run invs ri).startjtime =
      if ri.startjtime = 0 then
        ((invs.find? (fun i => i.1 && decide (i.2.last_frame_time ≠ 0))).map
          (fun i => i.2.last_frame_time)).getD 0
      else ri.startjtime := by
  induction invs generalizing ri with
  | nil =>
    by_cases h0 : ri.startjtime = 0 <;> simp [process_run, h0]
  | cons inv rest ih =>
    obtain ⟨r, cyc⟩ := inv
    simp only [process_run]
    rw [ih, process_startjtime]
    by_cases h0 : ri.startjtime = 0
    · cases r with
      | false => simp [h0, List.find?_cons]
      | true =>
        by_cases hF : cyc.last_frame_time = 0
        · simp [h0, hF, List.find?_cons]
        · simp [h0, hF, List.find?_cons]
    · simp [h0]

/-- C7 (refuted as stated): the frame counter reads 0 at the first running
invocation and 1024 at the second; the start time ends as 1024, set by the
second invocation. -/
theorem C7_start_time_recaptured_after_zero :
    (invocations_zero_first.find? (fun i => i.1)).map (fun i => i.2.last_frame_time) = some 0 ∧
    (process_run (invocations_zero_first.take 1) (main_init Int [] 1 48000 false)).startjtime = 0 ∧
    (process_run invocations_zero_first (main_init Int [] 1 48000 false)).startjtime = 1024 := by
  decide

/-- C7 (amended): from the initial session state, the start time after a sequence
of invocations of `process` is the frame counter observed at the first
invocation in which `running` was true and the counter was not 0, and 0 when
there is none. A single invocation sets it only when `running` is true and the
stored value is 0: a non-zero start time is never changed, and an invocation
with `running` false never sets it. -/
theorem C7_start_time_first_nonzero_capture {α : Type} (invs : List (Bool × jack_cycle α))
    (file : List α) (channels samplerate : Nat) (echo : Bool) :
    (process_run invs (main_init α file channels samplerate echo)).startjtime =
      ((invs.find? (fun i => i.1 && decide (i.2.last_frame_time ≠ 0))).map
        (fun i => i.2.last_frame_time)).getD 0 ∧
    (∀ (cyc : jack_cycle α) (ri : recolino_info_t α),
      (process cyc ri).1.startjtime =
        if ri.running = true ∧ ri.startjtime = 0 then cyc.last_frame_time
        else ri.startjtime) := by
  refine ⟨?_, process_startjtime⟩
  rw [process_run_startjtime]
  simp [main_init]

/-! ## Claims about the disk reader -/

theorem disk_write_frames_succ {α : Type} [Add α] [Zero α] (readbuf : List α)
    (channels n : Nat) (rb : jack_ringbuffer_t α) :
    disk_write_frames readbuf channels (n + 1) rb
      = jack_ringbuffer_write sizeof_sample (disk_write_frames readbuf channels n rb)
          (mix_frame readbuf channels n) := by
  simp [disk_write_frames, List.range_succ, List.foldl_append]

/-- When the frames fit, the mixer queues one mixed sample per frame, in frame
order, behind the samples already there. -/
theorem disk_write_frames_data {α : Type} [Add α] [Zero α] (readbuf : List α)
    (channels nread : Nat) (rb : jack_ringbuffer_t α)
    (h : nread * sizeof_sample ≤ jack_ringbuffer_write_space sizeof_sample rb) :
    (disk_write_frames readbuf channels nread rb).data
        = rb.data ++ (List.range nread).map (mix_frame readbuf channels) ∧
    (disk_write_frames readbuf channels nread rb).size = rb.size := by
  induction nread with
  | zero => simp [disk_write_frames]
  | succ n ih =>
    have hn : n * sizeof_sample ≤ jack_ringbuffer_write_space sizeof_sample rb := by
      rw [Nat.add_mul] at h; omega
    obtain ⟨hd, hs⟩ := ih hn
    have hfit : sizeof_sample
        ≤ jack_ringbuffer_write_space sizeof_sample (disk_write_frames readbuf channels n rb) := by
      simp only [jack_ringbuffer_write_space, hd, hs, List.length_append, List.length_map,
        List.length_range, sizeof_sample] at h ⊢
      omega
    rw [disk_write_frames_succ, write_fits _ _ _ hfit]
    simp only [hd, hs, List.range_succ, List.map_append, List.map_cons, List.map_nil,
      List.append_assoc, and_self]

theorem foldl_range_getD {α : Type} [Add α] [Zero α] (l : List α) (c : Nat) (init : α)
    (h : c ≤ l.length) :
    (List.range c).foldl (fun sum ci => sum + l.getD ci 0) init
      = (l.take c).foldl (fun sum x => sum + x) init := by
  induction c with
  | zero => simp
  | succ n ih =>
    have hlt : n < l.length := h
    rw [List.range_succ, List.foldl_append, ih (Nat.le_of_lt hlt), List.take_succ,
      List.foldl_append, List.getElem?_eq_getElem hlt]
    simp [List.getD_eq_getElem?_getD, List.getElem?_eq_getElem hlt]

/-- The mixed frame is the left-to-right sum, starting from zero, of the samples
of the frame. -/
theorem mix_frame_eq_sum {α : Type} [Add α] [Zero α] (readbuf : List α) (channels fi : Nat)
    (h : (fi + 1) * channels ≤ readbuf.length) :
    mix_frame readbuf channels fi
      = ((readbuf.drop (fi * channels)).take channels).foldl (fun sum x => sum + x) 0 := by
  have hlen : channels ≤ (readbuf.drop (fi * channels)).length := by
    rw [List.length_drop, Nat.add_mul, Nat.one_mul] at *; omega
  rw [← foldl_range_getD _ _ _ hlen]
  unfold mix_frame
  congr 1
  funext sum ci
  simp [List.getD_eq_getElem?_getD, List.getElem?_drop]

theorem sf_readf_float_spec {α : Type} (sndfile : List α) (channels n : Nat) :
    (sf_readf_float sndfile channels n).1 ≤ n ∧
    (sf_readf_float sndfile channels n).2.1.length
      = (sf_readf_float sndfile channels n).1 * channels := by
  simp only [sf_readf_float, List.length_take]
  refine ⟨Nat.min_le_left _ _, ?_⟩
  have h1 : min n (sndfile.length / channels) * channels ≤ sndfile.length / channels * channels :=
    Nat.mul_le_mul_right _ (Nat.min_le_right _ _)
  have h2 : sndfile.length / channels * channels ≤ sndfile.length := Nat.div_mul_le_self _ _
  omega

/-- The audio ring buffer after one iteration of the disk reader. -/
theorem disk_thread_iter_data {α : Type} [Add α] [Zero α] (sigcaught : Bool)
    (ri : recolino_info_t α) :
    (disk_thread_iter sigcaught ri).1.rbaudio.data =
      (if (sf_readf_float ri.sndfile ri.channels
            (jack_ringbuffer_write_space sizeof_sample ri.rbaudio / sizeof_sample)).1 = 0
          ∨ sigcaught = true then ri.rbaudio.data
      else ri.rbaudio.data ++
        (List.range (sf_readf_float ri.sndfile ri.channels
            (jack_ringbuffer_write_space sizeof_sample ri.rbaudio / sizeof_sample)).1).map
          (mix_frame (sf_readf_float ri.sndfile ri.channels
            (jack_ringbuffer_write_space sizeof_sample ri.rbaudio / sizeof_sample)).2.1
            ri.channels)) := by
  have hle := (sf_readf_float_spec ri.sndfile ri.channels
    (jack_ringbuffer_write_space sizeof_sample ri.rbaudio / sizeof_sample)).1
  have hfit : (sf_readf_float ri.sndfile ri.channels
      (jack_ringbuffer_write_space sizeof_sample ri.rbaudio / sizeof_sample)).1 * sizeof_sample
      ≤ jack_ringbuffer_write_space sizeof_sample ri.rbaudio :=
    Nat.le_trans (Nat.mul_le_mul_right _ hle) (Nat.div_mul_le_self _ _)
  unfold disk_thread_iter
  simp only []
  split
  · rfl
  · exact (disk_write_frames_data _ _ _ _ hfit).1

/-- C8: when the decoder returns a batch of `f > 0` frames of `c` channels (and no
cancellation is pending), the disk reader queues exactly `f` mono samples behind
those already in the audio ring buffer, in frame order; the `i`-th one is the
sum, from zero and left to right, of `readbuf[i*c .. i*c + c - 1]`, with no
division or scaling. The two-channel frame `[0.2, 0.3]` is queued as `0.5`. -/
theorem C8_disk_mix_plain_sum {α : Type} [Add α] [Zero α] (ri : recolino_info_t α)
    (hread : (sf_readf_float ri.sndfile ri.channels
      (jack_ringbuffer_write_space sizeof_sample ri.rbaudio / sizeof_sample)).1 ≠ 0) :
    (disk_thread_iter false ri).1.rbaudio.data =
      ri.rbaudio.data ++
        (List.range (sf_readf_float ri.sndfile ri.channels
            (jack_ringbuffer_write_space sizeof_sample ri.rbaudio / sizeof_sample)).1).map
          (fun i => (((sf_readf_float ri.sndfile ri.channels
            (jack_ringbuffer_write_space sizeof_sample ri.rbaudio / sizeof_sample)).2.1.drop
              (i * ri.channels)).take ri.channels).foldl (fun sum x => sum + x) 0) ∧
    (disk_thread_iter false ri).1.rbaudio.data.length =
      ri.rbaudio.data.length + (sf_readf_float ri.sndfile ri.channels
        (jack_ringbuffer_write_space sizeof_sample ri.rbaudio / sizeof_sample)).1 ∧
    (disk_thread_iter false session_stereo).1.rbaudio.data = [binary32.ofFrac 1 2] := by
  have hlen := (sf_readf_float_spec ri.sndfile ri.channels
    (jack_ringbuffer_write_space sizeof_sample ri.rbaudio / sizeof_sample)).2
  have hdata := disk_thread_iter_data false ri
  rw [if_neg (by simp [hread])] at hdata
  have hmap : (List.range (sf_readf_float ri.sndfile ri.channels
        (jack_ringbuffer_write_space sizeof_sample ri.rbaudio / sizeof_sample)).1).map
        (mix_frame (sf_readf_float ri.sndfile ri.channels
          (jack_ringbuffer_write_space sizeof_sample ri.rbaudio / sizeof_sample)).2.1 ri.channels)
      = (List.range (sf_readf_float ri.sndfile ri.channels
        (jack_ringbuffer_write_space sizeof_sample ri.rbaudio / sizeof_sample)).1).map
        (fun i => (((sf_readf_float ri.sndfile ri.channels
          (jack_ringbuffer_write_space sizeof_sample ri.rbaudio / sizeof_sample)).2.1.drop
            (i * ri.channels)).take ri.channels).foldl (fun sum x => sum + x) 0) := by
    apply List.map_congr_left
    intro i hi
    apply mix_frame_eq_sum
    rw [hlen]
    exact Nat.mul_le_mul_right _ (List.mem_range.mp hi)
  refine ⟨by rw [hdata, hmap], ?_, by decide⟩
  rw [hdata, List.length_append, List.length_map, List.length_range]

/-- Witness of C8: the one-frame stereo file. -/
theorem C8_disk_mix_plain_sum_witness :
    (disk_thread_iter false session_stereo).1.rbaudio.data.length =
      session_stereo.rbaudio.data.length + (sf_readf_float session_stereo.sndfile
        session_stereo.channels
        (jack_ringbuffer_write_space sizeof_sample session_stereo.rbaudio / sizeof_sample)).1 :=
  (C8_disk_mix_plain_sum session_stereo (by decide)).2.1

/-- C9: one iteration of the disk reader asks the decoder for
`n = write_space / sample_size` frames. If the decoder yields 0 frames or the
cancellation flag is set, nothing is queued (frames returned are discarded), the
thread leaves its loop and `running` is false. Otherwise every returned frame is
queued, mixed, the thread stays in its loop and `running` is true. So `running`
is true after an iteration exactly when that iteration queued at least one
sample, and false once the thread is done. -/
theorem C9_disk_iteration {α : Type} [Add α] [Zero α] (sigcaught : Bool)
    (ri : recolino_info_t α) :
    (disk_thread_iter sigcaught ri).1.sndfile =
      (sf_readf_float ri.sndfile ri.channels
        (jack_ringbuffer_write_space sizeof_sample ri.rbaudio / sizeof_sample)).2.2 ∧
    (disk_thread_iter sigcaught ri).1.rbaudio.data =
      (if (sf_readf_float ri.sndfile ri.channels
            (jack_ringbuffer_write_space sizeof_sample ri.rbaudio / sizeof_sample)).1 = 0
          ∨ sigcaught = true then ri.rbaudio.data
      else ri.rbaudio.data ++
        (List.range (sf_readf_float ri.sndfile ri.channels
            (jack_ringbuffer_write_space sizeof_sample ri.rbaudio / sizeof_sample)).1).map
          (mix_frame (sf_readf_float ri.sndfile ri.channels
            (jack_ringbuffer_write_space sizeof_sample ri.rbaudio / sizeof_sample)).2.1
            ri.channels)) ∧
    ((disk_thread_iter sigcaught ri).2 = true ↔
      ((sf_readf_float ri.sndfile ri.channels
          (jack_ringbuffer_write_space sizeof_sample ri.rbaudio / sizeof_sample)).1 = 0
        ∨ sigcaught = true)) ∧
    ((disk_thread_iter sigcaught ri).1.running = true ↔
      ¬ ((sf_readf_float ri.sndfile ri.channels
          (jack_ringbuffer_write_space sizeof_sample ri.rbaudio / sizeof_sample)).1 = 0
        ∨ sigcaught = true)) ∧
    ((disk_thread_iter sigcaught ri).1.running = true ↔
      ri.rbaudio.data.length < (disk_thread_iter sigcaught ri).1.rbaudio.data.length) ∧
    ((disk_thread_iter sigcaught ri).1.running = false ↔ (disk_thread_iter sigcaught ri).2 = true)
    := by
  have hdata := disk_thread_iter_data sigcaught ri
  have hshape : (disk_thread_iter sigcaught ri).1.sndfile =
        (sf_readf_float ri.sndfile ri.channels
          (jack_ringbuffer_write_space sizeof_sample ri.rbaudio / sizeof_sample)).2.2 ∧
      ((disk_thread_iter sigcaught ri).2 = true ↔
        ((sf_readf_float ri.sndfile ri.channels
            (jack_ringbuffer_write_space sizeof_sample ri.rbaudio / sizeof_sample)).1 = 0
          ∨ sigcaught = true)) ∧
      ((disk_thread_iter sigcaught ri).1.running = true ↔
        ¬ ((sf_readf_float ri.sndfile ri.channels
            (jack_ringbuffer_write_space sizeof_sample ri.rbaudio / sizeof_sample)).1 = 0
          ∨ sigcaught = true)) := by
    unfold disk_thread_iter
    simp only []
    split
    · rename_i h; simp [h]
    · rename_i h; simp [h]
  obtain ⟨h1, h2, h3⟩ := hshape
  refine ⟨h1, hdata, h2, h3, ?_, ?_⟩
  · rw [h3, hdata]
    by_cases hc : (sf_readf_float ri.sndfile ri.channels
        (jack_ringbuffer_write_space sizeof_sample ri.rbaudio / sizeof_sample)).1 = 0
        ∨ sigcaught = true
    · simp [hc]
    · simp only [hc, if_false, not_false_eq_true, List.length_append, List.length_map,
        List.length_range, true_iff]
      have : (sf_readf_float ri.sndfile ri.channels
        (jack_ringbuffer_write_space sizeof_sample ri.rbaudio / sizeof_sample)).1 ≠ 0 :=
        fun h0 => hc (Or.inl h0)
      omega
  · rw [h2, ← not_iff_not, Bool.not_eq_false, h3]

/-! ## Single-precision error bounds -/

/-- Rounding to the nearest integer misses the fraction by at most one half. -/
theorem round_half_even_nat (n d : Nat) (hd : 0 < d) :
    2 * (round_half_even n d * d) ≤ 2 * n + d ∧ 2 * n ≤ 2 * (round_half_even n d * d) + d := by
  have hdm := Nat.div_add_mod n d
  have hr := Nat.mod_lt n hd
  have hq : n / d * d + n % d = n := by rw [Nat.mul_comm]; exact hdm
  unfold round_half_even
  simp only []
  split
  · omega
  · split
    · rw [Nat.add_mul]; omega
    · split
      · omega
      · rw [Nat.add_mul]; omega

theorem round_half_even_abs (n d : Nat) (hd : 0 < d) :
    |(round_half_even n d : ℚ) - (n : ℚ) / d| ≤ 1 / 2 := by
  obtain ⟨h1, h2⟩ := round_half_even_nat n d hd
  have hd' : (0 : ℚ) < d := by exact_mod_cast hd
  have h1' : (2 : ℚ) * (round_half_even n d * d) ≤ 2 * n + d := by exact_mod_cast h1
  have h2' : (2 : ℚ) * n ≤ 2 * (round_half_even n d * d) + d := by exact_mod_cast h2
  have hx : (n : ℚ) = (n : ℚ) / d * d := by field_simp
  rw [hx] at h1' h2'
  rw [abs_le]
  constructor
  · by_contra hc
    push_neg at hc
    nlinarith
  · by_contra hc
    push_neg at hc
    nlinarith

theorem ilog2_aux_bounds (fuel n : Nat) (h0 : 0 < n) (hf : n ≤ fuel) :
    2 ^ ilog2_aux fuel n ≤ n ∧ n < 2 ^ (ilog2_aux fuel n + 1) := by
  induction fuel generalizing n with
  | zero => omega
  | succ f ih =>
    unfold ilog2_aux
    split
    · simp; omega
    · have h2 : 0 < n / 2 := Nat.div_pos (by omega) (by decide)
      have hle : n / 2 ≤ f := by omega
      obtain ⟨ha, hb⟩ := ih (n / 2) h2 hle
      constructor
      · rw [Nat.pow_succ]; omega
      · rw [Nat.pow_succ]; omega

theorem ilog2_bounds (n : Nat) (h0 : 0 < n) : 2 ^ ilog2 n ≤ n ∧ n < 2 ^ (ilog2 n + 1) :=
  ilog2_aux_bounds n n h0 (Nat.le_refl n)

theorem round_half_even_one (n : Nat) : round_half_even n 1 = n := by
  have h := round_half_even_nat n 1 (by decide)
  omega

/-- Conversion of an integer to `float` has relative error at most `2 ^ -24`. -/
theorem float_of_uint_err (n : Nat) :
    |(float_of_uint n : ℚ) - n| ≤ (n : ℚ) / 2 ^ 24 := by
  unfold float_of_uint
  simp only []
  by_cases hs : ilog2 n ≤ 23
  · have h0 : ilog2 n - 23 = 0 := by omega
    rw [h0, pow_zero, round_half_even_one, Nat.mul_one, sub_self, abs_zero]
    positivity
  · have hn : 0 < n := by
      rcases Nat.eq_zero_or_pos n with h | h
      · subst h; simp [ilog2, ilog2_aux] at hs
      · exact h
    obtain ⟨hlo, -⟩ := ilog2_bounds n hn
    have hsplit : ilog2 n = (ilog2 n - 23) + 23 := by omega
    generalize ilog2 n - 23 = s at *
    rw [hsplit, pow_add] at hlo
    have hlo' : (2 : ℚ) ^ s * 2 ^ 23 ≤ n := by exact_mod_cast hlo
    have hpos : (0 : ℚ) < 2 ^ s := by positivity
    have hr := round_half_even_abs n (2 ^ s) (by positivity)
    push_cast at hr ⊢
    have hx : (n : ℚ) = (n : ℚ) / 2 ^ s * 2 ^ s := by field_simp
    generalize hm : (round_half_even n (2 ^ s) : ℚ) = m at *
    generalize hq : (n : ℚ) / 2 ^ s = q at *
    rw [hx] at hlo' ⊢
    rw [abs_le] at hr ⊢
    constructor <;> nlinarith [hr.1, hr.2]

theorem two_zpow_split (s : ℤ) : (2 : ℚ) ^ s = 2 ^ s.toNat / 2 ^ (-s).toNat := by
  rcases le_total 0 s with h | h
  · lift s to ℕ using h
    simp
  · obtain ⟨n, rfl⟩ := Int.exists_eq_neg_ofNat h
    simp

/-- The exponent chosen for the quotient does not exceed its binary logarithm. -/
theorem float_quot_exp_le (N M : Nat) (hN : 0 < N) (hM : 0 < M) :
    (2 : ℚ) ^ float_quot_exp N M ≤ (N : ℚ) / M := by
  obtain ⟨hNlo, -⟩ := ilog2_bounds N hN
  obtain ⟨-, hMhi⟩ := ilog2_bounds M hM
  have hM' : (0 : ℚ) < M := by exact_mod_cast hM
  have hNlo' : (2 : ℚ) ^ ilog2 N ≤ N := by exact_mod_cast hNlo
  have hMhi' : (M : ℚ) ≤ 2 ^ (ilog2 M + 1) := by exact_mod_cast le_of_lt hMhi
  unfold float_quot_exp
  simp only []
  split
  · rename_i h
    have h' : (M : ℚ) * 2 ^ (ilog2 N - ilog2 M) ≤ N * 2 ^ (ilog2 M - ilog2 N) := by
      exact_mod_cast h
    rw [le_div_iff₀ hM']
    rcases le_total (ilog2 M) (ilog2 N) with hab | hab
    · have e1 : ((ilog2 N : ℤ) - ilog2 M) = ((ilog2 N - ilog2 M : ℕ) : ℤ) := by omega
      have e2 : ilog2 M - ilog2 N = 0 := by omega
      rw [e1, zpow_natCast]
      rw [e2, pow_zero, mul_one] at h'
      linarith
    · have e1 : ((ilog2 N : ℤ) - ilog2 M) = -((ilog2 M - ilog2 N : ℕ) : ℤ) := by omega
      have e2 : ilog2 N - ilog2 M = 0 := by omega
      rw [e1, zpow_neg, zpow_natCast]
      rw [e2, pow_zero, mul_one] at h'
      have hp : (0 : ℚ) < 2 ^ (ilog2 M - ilog2 N) := by positivity
      rw [inv_mul_le_iff₀ hp]
      linarith
  · have e1 : ((ilog2 N : ℤ) - ilog2 M - 1) = (ilog2 N : ℤ) - ((ilog2 M + 1 : ℕ) : ℤ) := by
      push_cast; ring
    rw [e1, zpow_sub₀ (by norm_num), zpow_natCast, zpow_natCast]
    exact div_le_div₀ (by positivity) hNlo' hM' hMhi'

/-- The exponent chosen for the quotient is its binary logarithm, rounded down. -/
theorem float_quot_exp_lt (N M : Nat) (hN : 0 < N) (hM : 0 < M) :
    (N : ℚ) / M < (2 : ℚ) ^ (float_quot_exp N M + 1) := by
  obtain ⟨-, hNhi⟩ := ilog2_bounds N hN
  obtain ⟨hMlo, -⟩ := ilog2_bounds M hM
  have hM' : (0 : ℚ) < M := by exact_mod_cast hM
  have hNhi' : (N : ℚ) < 2 ^ (ilog2 N + 1) := by exact_mod_cast hNhi
  have hMlo' : (2 : ℚ) ^ ilog2 M ≤ M := by exact_mod_cast hMlo
  unfold float_quot_exp
  simp only []
  split
  · have e1 : ((ilog2 N : ℤ) - ilog2 M + 1) = ((ilog2 N + 1 : ℕ) : ℤ) - ((ilog2 M : ℕ) : ℤ) := by
      push_cast; ring
    rw [e1, zpow_sub₀ (by norm_num), zpow_natCast, zpow_natCast]
    exact div_lt_div₀ hNhi' hMlo' (by positivity) (by positivity)
  · rename_i h
    have h' : (N : ℚ) * 2 ^ (ilog2 M - ilog2 N) < M * 2 ^ (ilog2 N - ilog2 M) := by
      exact_mod_cast Nat.lt_of_not_le h
    have e0 : ((ilog2 N : ℤ) - ilog2 M - 1 + 1) = (ilog2 N : ℤ) - ilog2 M := by ring
    rw [e0, div_lt_iff₀ hM']
    rcases le_total (ilog2 M) (ilog2 N) with hab | hab
    · have e1 : ((ilog2 N : ℤ) - ilog2 M) = ((ilog2 N - ilog2 M : ℕ) : ℤ) := by omega
      have e2 : ilog2 M - ilog2 N = 0 := by omega
      rw [e1, zpow_natCast]
      rw [e2, pow_zero, mul_one] at h'
      linarith
    · have e1 : ((ilog2 N : ℤ) - ilog2 M) = -((ilog2 M - ilog2 N : ℕ) : ℤ) := by omega
      have e2 : ilog2 N - ilog2 M = 0 := by omega
      rw [e1, zpow_neg, zpow_natCast]
      rw [e2, pow_zero, mul_one] at h'
      have hp : (0 : ℚ) < 2 ^ (ilog2 M - ilog2 N) := by positivity
      rw [lt_inv_mul_iff₀ hp]
      linarith

/-- The significand computed by `float_round` has 24 bits: it lies between
`2 ^ 23` and `2 ^ 24`. -/
theorem float_round_significand (N M : Nat) (hN : 0 < N) (hM : 0 < M) :
    2 ^ 23 ≤ round_half_even (N * 2 ^ (-(float_quot_exp N M - 23)).toNat)
        (M * 2 ^ (float_quot_exp N M - 23).toNat) ∧
    round_half_even (N * 2 ^ (-(float_quot_exp N M - 23)).toNat)
        (M * 2 ^ (float_quot_exp N M - 23).toNat) ≤ 2 ^ 24 := by
  have hlo := float_quot_exp_le N M hN hM
  have hhi := float_quot_exp_lt N M hN hM
  have hM' : (0 : ℚ) < M := by exact_mod_cast hM
  generalize hs : float_quot_exp N M - 23 = s at *
  have hks : float_quot_exp N M = s + 23 := by omega
  rw [hks, zpow_add₀ (by norm_num)] at hlo
  rw [hks, show s + 23 + 1 = s + 24 by ring, zpow_add₀ (by norm_num)] at hhi
  have hsplit := two_zpow_split s
  have hr := round_half_even_abs (N * 2 ^ (-s).toNat) (M * 2 ^ s.toNat) (by positivity)
  have ht : (0 : ℚ) < 2 ^ s := by positivity
  have hAB : ((N * 2 ^ (-s).toNat : ℕ) : ℚ) / ((M * 2 ^ s.toNat : ℕ) : ℚ)
      = (N : ℚ) / M / 2 ^ s := by
    push_cast
    rw [hsplit]; field_simp
  rw [hAB] at hr
  have hx : (N : ℚ) / M = (N : ℚ) / M / 2 ^ s * 2 ^ s := by
    rw [div_mul_cancel₀]; exact ne_of_gt ht
  generalize (N : ℚ) / M / 2 ^ s = q at *
  rw [hx] at hlo hhi
  have hq1 : (2 : ℚ) ^ 23 ≤ q := by
    have := le_of_mul_le_mul_left (by linarith [mul_comm q ((2 : ℚ) ^ s)] :
      (2 : ℚ) ^ s * 2 ^ 23 ≤ 2 ^ s * q) ht
    simpa using this
  have hq2 : q < (2 : ℚ) ^ 24 := by
    have := lt_of_mul_lt_mul_left (by linarith [mul_comm q ((2 : ℚ) ^ s)] :
      (2 : ℚ) ^ s * q < 2 ^ s * 2 ^ 24) (le_of_lt ht)
    simpa using this
  rw [abs_le] at hr
  generalize round_half_even (N * 2 ^ (-s).toNat) (M * 2 ^ s.toNat) = m at *
  constructor
  · have h1 : (8388607 : ℚ) < (m : ℚ) := by
      norm_num at hq1; linarith [hr.1]
    have h2 : 8388607 < m := by exact_mod_cast h1
    have h3 : (2 : ℕ) ^ 23 = 8388608 := by norm_num
    omega
  · have h1 : (m : ℚ) < (16777217 : ℚ) := by
      norm_num at hq2; linarith [hr.2]
    have h2 : m < 16777217 := by exact_mod_cast h1
    have h3 : (2 : ℕ) ^ 24 = 16777216 := by norm_num
    omega

/-- Rounding a positive fraction to 24 significant bits has relative error at
most `2 ^ -24`. -/
theorem float_round_err (N M : Nat) (hN : 0 < N) (hM : 0 < M) :
    0 < (float_round N M).2 ∧
    |((float_round N M).1 : ℚ) / (float_round N M).2 - (N : ℚ) / M| ≤ (N : ℚ) / M / 2 ^ 24 := by
  have hk := float_quot_exp_le N M hN hM
  have hN' : (0 : ℚ) < N := by exact_mod_cast hN
  have hM' : (0 : ℚ) < M := by exact_mod_cast hM
  unfold float_round
  rw [if_neg (by omega)]
  simp only []
  generalize hs : float_quot_exp N M - 23 = s at *
  have hks : float_quot_exp N M = s + 23 := by omega
  rw [hks, zpow_add₀ (by norm_num)] at hk
  have hsplit := two_zpow_split s
  have hr := round_half_even_abs (N * 2 ^ (-s).toNat) (M * 2 ^ s.toNat) (by positivity)
  refine ⟨by positivity, ?_⟩
  push_cast at hr ⊢
  generalize hm : (round_half_even (N * 2 ^ (-s).toNat) (M * 2 ^ s.toNat) : ℚ) = m at *
  have hp : (0 : ℚ) < 2 ^ s.toNat := by positivity
  have hn : (0 : ℚ) < 2 ^ (-s).toNat := by positivity
  have ht : (0 : ℚ) < 2 ^ s := by positivity
  have hAB : (N : ℚ) * 2 ^ (-s).toNat / (M * 2 ^ s.toNat) = (N : ℚ) / M / 2 ^ s := by
    rw [hsplit]; field_simp
  have hval : m * 2 ^ s.toNat / 2 ^ (-s).toNat = m * 2 ^ s := by
    rw [hsplit]; field_simp
  rw [hAB] at hr
  rw [hval]
  have hx : (N : ℚ) / M = (N : ℚ) / M / 2 ^ s * 2 ^ s := by
    rw [div_mul_cancel₀]; exact ne_of_gt ht
  generalize (N : ℚ) / M / 2 ^ s = q at *
  generalize (2 : ℚ) ^ s = t at *
  rw [hx] at hk ⊢
  rw [abs_le] at hr ⊢
  norm_num at hk ⊢
  constructor <;> nlinarith [hr.1, hr.2]

/-- The count of thousandths printed by `%.3f` is within one half of the exact
count. -/
theorem float_millis_err (num den : Nat) (hden : 0 < den) :
    |(float_millis num den : ℚ) / 1000 - (num : ℚ) / den| ≤ 1 / 2000 := by
  have hr := round_half_even_abs (1000 * num) den hden
  unfold float_millis
  push_cast at hr
  rw [abs_le] at hr ⊢
  have e : (1000 : ℚ) * num / den = 1000 * ((num : ℚ) / den) := by ring
  rw [e] at hr
  constructor <;> linarith [hr.1, hr.2]

theorem float_of_uint_pos (n : Nat) (hn : 0 < n) : 0 < float_of_uint n := by
  have h := float_of_uint_err n
  have hn' : (0 : ℚ) < n := by exact_mod_cast hn
  rcases Nat.eq_zero_or_pos (float_of_uint n) with h0 | h0
  · rw [h0, Nat.cast_zero, zero_sub, abs_neg, abs_of_pos hn'] at h
    have : (n : ℚ) / 2 ^ 24 < n := by
      rw [div_lt_iff₀ (by positivity)]; nlinarith
    linarith
  · exact h0

theorem elapsed_frames_sub (jtstamp startjtime : Nat) (h1 : startjtime ≤ jtstamp)
    (h2 : jtstamp < NFRAMES_MOD) : elapsed_frames jtstamp startjtime = jtstamp - startjtime := by
  unfold elapsed_frames NFRAMES_MOD at *
  omega

/-- The single-precision quotient of `d` frames by the rate `R` has relative
error at most `2 ^ -22`. -/
theorem float_div_err (d R : Nat) (hR : 0 < R) :
    ∃ num den : Nat, 0 < den ∧
      float_div (float_of_uint d) (float_of_uint R) = float_t.finite num den ∧
      |(num : ℚ) / den - (d : ℚ) / R| ≤ (d : ℚ) / R / 2 ^ 22 := by
  have hM := float_of_uint_pos R hR
  have hR' : (0 : ℚ) < R := by exact_mod_cast hR
  have hM' : (0 : ℚ) < float_of_uint R := by exact_mod_cast hM
  have hdiv : float_div (float_of_uint d) (float_of_uint R)
      = float_t.finite (float_round (float_of_uint d) (float_of_uint R)).1
          (float_round (float_of_uint d) (float_of_uint R)).2 := by
    unfold float_div
    rw [if_neg (by omega)]
  refine ⟨_, _, ?_, hdiv, ?_⟩
  · rcases Nat.eq_zero_or_pos (float_of_uint d) with h0 | h0
    · simp [float_round, h0]
    · exact (float_round_err _ _ h0 hM).1
  · rcases Nat.eq_zero_or_pos d with hd0 | hd0
    · subst hd0
      have : float_of_uint 0 = 0 := by decide
      simp [this, float_round]
    · have hN := float_of_uint_pos d hd0
      obtain ⟨-, hq⟩ := float_round_err _ _ hN hM
      have hd' : (0 : ℚ) < d := by exact_mod_cast hd0
      have hN' : (0 : ℚ) < float_of_uint d := by exact_mod_cast hN
      have e1 := float_of_uint_err d
      have e2 := float_of_uint_err R
      generalize ((float_round (float_of_uint d) (float_of_uint R)).1 : ℚ)
        / (float_round (float_of_uint d) (float_of_uint R)).2 = v at *
      generalize (float_of_uint d : ℚ) = N at *
      generalize (float_of_uint R : ℚ) = M at *
      generalize (d : ℚ) = x at *
      generalize (R : ℚ) = y at *
      rw [abs_le] at e1 e2 hq ⊢
      obtain ⟨e1a, e1b⟩ := e1
      obtain ⟨e2a, e2b⟩ := e2
      obtain ⟨hqa, hqb⟩ := hq
      have hNM : N / M ≤ x / y * ((1 + 1 / 2 ^ 24) / (1 - 1 / 2 ^ 24)) := by
        rw [div_mul_div_comm, div_le_div_iff₀ hM' (by positivity)]
        have hA : N ≤ x * (1 + 1 / 2 ^ 24) := by linarith
        have hB : y * (1 - 1 / 2 ^ 24) ≤ M := by linarith
        have hA0 : 0 ≤ x * (1 + 1 / 2 ^ 24) := by positivity
        calc N * (y * (1 - 1 / 2 ^ 24)) ≤ x * (1 + 1 / 2 ^ 24) * (y * (1 - 1 / 2 ^ 24)) := by
              apply mul_le_mul_of_nonneg_right hA; norm_num; positivity
          _ ≤ x * (1 + 1 / 2 ^ 24) * M := mul_le_mul_of_nonneg_left hB hA0
      have hNM2 : x / y * ((1 - 1 / 2 ^ 24) / (1 + 1 / 2 ^ 24)) ≤ N / M := by
        rw [div_mul_div_comm, div_le_div_iff₀ (by positivity) hM']
        have hA : x * (1 - 1 / 2 ^ 24) ≤ N := by linarith
        have hB : M ≤ y * (1 + 1 / 2 ^ 24) := by linarith
        have hA0 : 0 ≤ x * (1 - 1 / 2 ^ 24) := by
          apply mul_nonneg (le_of_lt hd'); norm_num
        calc x * (1 - 1 / 2 ^ 24) * M ≤ x * (1 - 1 / 2 ^ 24) * (y * (1 + 1 / 2 ^ 24)) :=
              mul_le_mul_of_nonneg_left hB hA0
          _ ≤ N * (y * (1 + 1 / 2 ^ 24)) := by
              apply mul_le_mul_of_nonneg_right hA; positivity
      have hxy : 0 < x / y := div_pos hd' hR'
      have hNMpos : 0 < N / M := div_pos hN' hM'
      generalize x / y = z at *
      generalize N / M = w at *
      norm_num at hNM hNM2 hqa hqb ⊢
      constructor <;> nlinarith

/-! ## Claims about the annotation writer -/

/-- C1 (refuted as stated): for a 44100 Hz file and a key event 1412104 frames
after the start, the writer prints `32.021`, although the exact elapsed time
1412104 / 44100 = 32.02049886... is more than 0.0005 away from 32.021 and
rounds to 32.020. For an 8000 Hz file and an event 3000000121 frames after the
start it prints `375000.000`, where the exact elapsed time is 375000.015125. -/
theorem C1_line_differs_from_exact_rounding :
    (output_drain 1 (session_key_event 44100 1413104)).annout = ["32.021 x\n"] ∧
    (1 : ℚ) / 2000 < |(32021 : ℚ) / 1000 - ((1413104 : ℚ) - 1000) / 44100| ∧
    |(32020 : ℚ) / 1000 - ((1413104 : ℚ) - 1000) / 44100| < 1 / 2000 ∧
    (output_drain 1 (session_key_event 8000 3000001121)).annout = ["375000.000 x\n"] ∧
    (1 : ℚ) / 2000 < |(375000000 : ℚ) / 1000 - ((3000001121 : ℚ) - 1000) / 8000| := by
  refine ⟨by decide, ?_, ?_, by decide, ?_⟩
  · rw [lt_abs]; left; norm_num
  · rw [abs_lt]; constructor <;> norm_num
  · rw [lt_abs]; right; norm_num

/-- C1 (amended): with a positive file rate `R`, the writer prints one line per
popped event, oldest first. For an event stamped `T1 ≥ T0 = startjtime` the line
is a number with three decimals, one space, the value as a character (key) or
as an unsigned decimal (MIDI), and a newline. The number is the single-precision
quotient of `T1 - T0` by `R` rounded to three decimals: it is within
`0.0005 + ((T1 - T0) / R) / 2 ^ 22` of the exact elapsed time `(T1 - T0) / R`.
A key event `x` at `T0 + 24000` with `R = 48000` gives exactly `0.500 x`. -/
theorem C1_output_line_single_precision {α : Type} (ri : recolino_info_t α) (k : Nat)
    (hR : 0 < ri.samplerate) :
    (output_drain (ri.rbevent.data.length + k) ri).annout
      = ri.annout ++ ri.rbevent.data.map (output_line ri.startjtime ri.samplerate) ∧
    (∀ event : recolino_event_t, ri.startjtime ≤ event.jtstamp → event.jtstamp < NFRAMES_MOD →
      ∃ K : Nat,
        output_line ri.startjtime ri.samplerate event
          = decimal3 K ++ " " ++ value_text event ++ "\n" ∧
        |(K : ℚ) / 1000 - ((event.jtstamp : ℚ) - ri.startjtime) / ri.samplerate|
          ≤ 1 / 2000 + ((event.jtstamp : ℚ) - ri.startjtime) / ri.samplerate / 2 ^ 22) ∧
    (∀ T : Nat, value_text ⟨recolino_evtype.RECOLINO_EVENT_KEY, T, 120⟩ = "x") ∧
    (∀ T : Nat, value_text ⟨recolino_evtype.RECOLINO_EVENT_MIDI, T, 60⟩ = "60") ∧
    (output_drain 1 (session_key_event 48000 25000)).annout = ["0.500 x\n"] := by
  have hmidi : toString (Int.toNat ((60 : Int) % 4294967296)) = "60" := by decide
  refine ⟨(output_drain_all _ _ (Nat.le_add_right _ k)).1, ?_, fun _ => rfl,
    fun _ => hmidi, by decide⟩
  intro event h1 h2
  obtain ⟨num, den, hden, hdiv, herr⟩ :=
    float_div_err (elapsed_frames event.jtstamp ri.startjtime) ri.samplerate hR
  refine ⟨float_millis num den, ?_, ?_⟩
  · unfold output_line tsec
    rw [hdiv]
    rfl
  · have hm := float_millis_err num den hden
    rw [elapsed_frames_sub _ _ h1 h2, Nat.cast_sub h1] at herr
    rw [abs_le] at hm herr ⊢
    constructor <;> linarith [hm.1, hm.2, herr.1, herr.2]

/-- Witness of C1 (amended): the session of the 48000 Hz example. -/
theorem C1_output_line_single_precision_witness :
    0 < (session_key_event 48000 25000).samplerate ∧
    (output_drain ((session_key_event 48000 25000).rbevent.data.length + 0)
        (session_key_event 48000 25000)).annout
      = (session_key_event 48000 25000).annout ++
        (session_key_event 48000 25000).rbevent.data.map
          (output_line (session_key_event 48000 25000).startjtime
            (session_key_event 48000 25000).samplerate) :=
  ⟨by decide, (C1_output_line_single_precision (session_key_event 48000 25000) 0 (by decide)).1⟩

/-- C10: the writer takes the elapsed frame count as the 32-bit difference of the
event stamp and the start time. For every start value `T0` and every elapsed
count `d` below `2 ^ 32`, an event stamped `(T0 + d) mod 2 ^ 32` yields elapsed
frames exactly `d`, also when the counter wrapped in between, and the elapsed
seconds are the single-precision quotient of `d` by the rate `R`: a
non-negative float within relative error `2 ^ -22` of `d / R`. The frame count
is a value of `jack_nframes_t`, so never negative. -/
theorem C10_elapsed_frames_wraparound (T0 d R : Nat) (hd : d < NFRAMES_MOD) (hR : 0 < R) :
    elapsed_frames ((T0 + d) % NFRAMES_MOD) T0 = d ∧
    (∀ (ty : recolino_evtype) (v : Int),
      tsec T0 R ⟨ty, (T0 + d) % NFRAMES_MOD, v⟩
        = float_div (float_of_uint d) (float_of_uint R)) ∧
    (∃ num den : Nat, 0 < den ∧
      float_div (float_of_uint d) (float_of_uint R) = float_t.finite num den ∧
      |(num : ℚ) / den - (d : ℚ) / R| ≤ (d : ℚ) / R / 2 ^ 22) ∧
    (∀ a b : Nat, elapsed_frames a b < NFRAMES_MOD) := by
  have he : elapsed_frames ((T0 + d) % NFRAMES_MOD) T0 = d := by
    unfold elapsed_frames NFRAMES_MOD at *
    omega
  refine ⟨he, ?_, float_div_err d R hR, ?_⟩
  · intro ty v
    unfold tsec
    rw [he]
  · intro a b
    unfold elapsed_frames NFRAMES_MOD
    omega

/-- Witness of C10: the counter wraps between the start (`2 ^ 32 - 1000`) and an
event 24000 frames later. -/
theorem C10_elapsed_frames_wraparound_witness :
    elapsed_frames ((4294966296 + 24000) % NFRAMES_MOD) 4294966296 = 24000 :=
  (C10_elapsed_frames_wraparound 4294966296 24000 48000 (by decide) (by decide)).1

end Recolino
